import Mathlib

set_option maxHeartbeats 1000000

/-!
Shallow embedding of the glow image-classifier driver
(`tools/loader/ImageClassifier.cpp`) and of the queue-backed device
manager (`QueueBackedDeviceManager.cpp`), together with proofs about the
top-K reducer, the run-identifier counter, the serialized task queue, the
mini-batch partitioning, and the driver's configuration checks.

Scores handled by `getTopKPairs` are embedded as rationals: the function
performs no arithmetic on the scores, only `<` comparisons, so any
linearly ordered score type is faithful to the C++ `float`/`float16`
instantiations on non-NaN inputs.
-/

/-- `FloatIndexPair` from ImageClassifier.cpp:
`using FloatIndexPair = std::pair<float, size_t>`. -/
abbrev FloatIndexPair := ℚ × ℕ

/-- The strict lexicographic order on (score, index) pairs.  This is the
order induced by `std::greater<FloatIndexPair>` on the priority queue in
`getTopKPairs`: `top()` is the least pair in this order. -/
def pairLt (a b : FloatIndexPair) : Prop :=
  a.1 < b.1 ∨ (a.1 = b.1 ∧ a.2 < b.2)

instance pairLt.instDecidable : DecidableRel pairLt := fun a b => by
  unfold pairLt
  exact inferInstance

/-- `topKQueue.push p`: the priority queue is modelled as a list kept
sorted ascending in `pairLt`, whose head is `top()` (the minimum). -/
def qInsert (p : FloatIndexPair) : List FloatIndexPair → List FloatIndexPair
  | [] => [p]
  | a :: l => if pairLt p a then p :: a :: l else a :: qInsert p l

/-- One iteration of the scan loop in `getTopKPairs`
(ImageClassifier.cpp:250-261): push while fewer than `K` entries are
held, otherwise evict `top()` and push only when the new score is
strictly greater than the held minimum. -/
def topKStep (K : ℕ) (q : List FloatIndexPair) (p : FloatIndexPair) :
    List FloatIndexPair :=
  if q.length < K then qInsert p q
  else
    match q with
    | [] => []
    | m :: rest => if m.1 < p.1 then qInsert p rest else m :: rest

/-- The left-to-right scan over the score vector, carrying the running
index `i` (the loop variable of ImageClassifier.cpp:250). -/
def topKScan (K : ℕ) : List ℚ → ℕ → List FloatIndexPair → List FloatIndexPair
  | [], _, q => q
  | s :: rest, i, q => topKScan K rest (i + 1) (topKStep K q (s, i))

/-- `getTopKPairs` (ImageClassifier.cpp:238-271): scan the vector once,
then drain the queue from minimum to maximum into the result array in
reverse order.  When `K ≤ H.length` the final queue holds exactly `K`
entries, so the drain loop is exactly `List.reverse`. -/
def getTopKPairs (K : ℕ) (H : List ℚ) : List FloatIndexPair :=
  (topKScan K H 0 []).reverse

/-- Loop invariant of the scan in `getTopKPairs`, after all entries with
index below `i` of the score function `f` have been processed: the queue
is sorted ascending in `pairLt`, holds `min K i` entries that are genuine
(score, index) pairs of `f` with pairwise-distinct indices below `i`, and
every already-dropped index scores no higher than anything held. -/
def TopKInv (f : ℕ → ℚ) (K i : ℕ) (q : List FloatIndexPair) : Prop :=
  q.Pairwise pairLt ∧
  (∀ p ∈ q, p.2 < i ∧ f p.2 = p.1) ∧
  (q.map Prod.snd).Nodup ∧
  q.length = min K i ∧
  (∀ j < i, (∀ p ∈ q, p.2 ≠ j) → ∀ p ∈ q, f j ≤ p.1)

/-- C++ `a - b` at type `size_t` (64-bit unsigned wrap-around), used by
`checkExpectedLabel` for `p.second - labelOffset`. -/
def subSizeT (a b : ℕ) : ℕ := (a + (2 ^ 64 - b % 2 ^ 64)) % 2 ^ 64

/-- `checkExpectedLabel` (ImageClassifier.cpp:290-305): scan the top-K
pairs for an index matching the expected category after removing the
label offset; on success return 0, otherwise emit one diagnostic that
identifies the file name and the expected index and return 1.  The
diagnostic stream is modelled structurally as the second component. -/
def checkExpectedLabel (labelOffset : ℕ) :
    List FloatIndexPair → String → ℕ → ℕ × List (String × ℕ)
  | [], fileName, expectedCategoryIndex =>
      (1, [(fileName, expectedCategoryIndex)])
  | p :: ps, fileName, expectedCategoryIndex =>
      if subSizeT p.2 labelOffset = expectedCategoryIndex then (0, [])
      else checkExpectedLabel labelOffset ps fileName expectedCategoryIndex

/-- The accumulation loop of `processAndPrintResultsImpl`
(ImageClassifier.cpp:340-362) restricted to the mismatch counting:
each sample is a (top-K pairs, file name, expected index) triple and the
per-sample `checkExpectedLabel` results are added to `retVal`. -/
def processAndPrintResultsMismatches (labelOffset : ℕ)
    (samples : List (List FloatIndexPair × String × ℕ)) : ℕ :=
  samples.foldl
    (fun acc s => acc + (checkExpectedLabel labelOffset s.1 s.2.1 s.2.2).1) 0

/-- One task enqueued onto the single worker thread of
`QueueBackedDeviceManager` (QueueBackedDeviceManager.cpp): the bodies of
the lambdas submitted by `addNetwork`, `evictNetwork` and `runFunction`.
Network payloads are opaque and represented by a number. -/
inductive DeviceTask where
  | addNetworkImpl (module : ℕ)
  | evictNetworkImpl (functionName : String)
  | runFunctionImpl (id : ℕ) (functionName : String)
deriving DecidableEq

/-- The state of a `QueueBackedDeviceManager`: the `nextIdentifier_`
counter and the FIFO queue behind `workThread_`. -/
structure QueueBackedDeviceManager where
  nextIdentifier : ℕ
  taskQueue : List DeviceTask
deriving DecidableEq

/-- `QueueBackedDeviceManager::addNetwork`: submit a load task. -/
def QueueBackedDeviceManager.addNetwork (dm : QueueBackedDeviceManager)
    (module : ℕ) : QueueBackedDeviceManager :=
  { dm with taskQueue := dm.taskQueue ++ [DeviceTask.addNetworkImpl module] }

/-- `QueueBackedDeviceManager::evictNetwork`: submit an evict task. -/
def QueueBackedDeviceManager.evictNetwork (dm : QueueBackedDeviceManager)
    (functionName : String) : QueueBackedDeviceManager :=
  { dm with
      taskQueue := dm.taskQueue ++ [DeviceTask.evictNetworkImpl functionName] }

/-- `QueueBackedDeviceManager::runFunction`
(QueueBackedDeviceManager.cpp:250-264): read `nextIdentifier_`, increment
it once (`nextIdentifier_++`), enqueue the run task and return the old
counter value immediately. -/
def QueueBackedDeviceManager.runFunction (dm : QueueBackedDeviceManager)
    (functionName : String) : ℕ × QueueBackedDeviceManager :=
  (dm.nextIdentifier,
   { nextIdentifier := dm.nextIdentifier + 1,
     taskQueue :=
       dm.taskQueue ++ [DeviceTask.runFunctionImpl dm.nextIdentifier functionName] })

/-- A sequence of `runFunction` calls on one manager instance, returning
the identifiers in allocation order together with the final state. -/
def QueueBackedDeviceManager.runCalls (dm : QueueBackedDeviceManager) :
    List String → List ℕ × QueueBackedDeviceManager
  | [] => ([], dm)
  | f :: fs =>
      let r := dm.runFunction f
      let rest := r.2.runCalls fs
      (r.1 :: rest.1, rest.2)

/-- Modelled from the spec: the `ThreadExecutor` behind `workThread_` is
not under src/ (only its callers are).  Per the spec's concurrency
contract, producers append under mutual exclusion, so the enqueue order
of N operations submitted by M producer threads is some interleaving of
the producers' per-thread submission sequences.  `mergeSched` builds the
enqueue order from a schedule: each schedule entry names the producer
whose next pending operation is appended. -/
def mergeSched {α : Type} : List ℕ → List (List α) → List α
  | [], _ => []
  | t :: ts, prods =>
    match prods.getD t [] with
    | [] => mergeSched ts prods
    | x :: xs => x :: mergeSched ts (prods.set t xs)

/-- The operations left pending at each producer after a schedule ran. -/
def mergeRem {α : Type} : List ℕ → List (List α) → List (List α)
  | [], prods => prods
  | t :: ts, prods =>
    match prods.getD t [] with
    | [] => mergeRem ts prods
    | _ :: xs => mergeRem ts (prods.set t xs)

/-- Modelled from the spec: the single consumer loop of the task queue —
repeatedly dequeue the front task and execute it, so the execution trace
lists the queued tasks front to back. -/
def workerDrain {α : Type} : List α → List α
  | [] => []
  | t :: ts => t :: workerDrain ts

/-- `numBatches` (ImageClassifier.cpp:536-537). -/
def mainNumBatches (miniBatchMode : Bool) (total miniBatch : ℕ) : ℕ :=
  if miniBatchMode then total / miniBatch else 1

/-- `multiThreadingAllowed` (ImageClassifier.cpp:534-535). -/
def multiThreadingAllowed (miniBatchMode emittingBundle profilingGraph : Bool) :
    Bool :=
  miniBatchMode && !emittingBundle && !profilingGraph

/-- `numThreads` (ImageClassifier.cpp:538-540). -/
def mainNumThreads (multiThreadingAllowed : Bool)
    (miniBatchThreads numBatches : ℕ) : ℕ :=
  if multiThreadingAllowed then min miniBatchThreads numBatches else 1

/-- `miniBatchesPerThread` (ImageClassifier.cpp:549-550). -/
def miniBatchesPerThread (numBatches numThreads : ℕ) : ℕ :=
  (numBatches + numThreads - 1) / numThreads

/-- `startIndex` for worker `i` (ImageClassifier.cpp:554), in the
multi-threaded branch. -/
def threadStartIndex (i mbPerThread miniBatch : ℕ) : ℕ :=
  i * mbPerThread * miniBatch

/-- `endIndex` for worker `i` (ImageClassifier.cpp:555-556). -/
def threadEndIndex (i mbPerThread miniBatch total : ℕ) : ℕ :=
  min ((i + 1) * mbPerThread * miniBatch) total

/-- `getNextMiniBatch` (ImageClassifier.cpp:155-169): when the index has
reached the limit return `false` leaving both the image list and the
index unchanged; otherwise replace the image list with
`totalImageList[miniBatchIndex .. miniBatchIndex + miniBatchSize)` (the
push-back loop) and advance the index by the batch size. -/
def getNextMiniBatch (imageList totalImageList : List String)
    (miniBatchIndex miniBatchSize miniBatchLimit : ℕ) :
    Bool × List String × ℕ :=
  if miniBatchIndex ≥ miniBatchLimit then (false, imageList, miniBatchIndex)
  else
    (true,
     (List.range' miniBatchIndex miniBatchSize).map
       (fun index => totalImageList.getD index ""),
     miniBatchIndex + miniBatchSize)

/-- `streamInputFilenamesMode` (ImageClassifier.cpp:431-433):
`inputImageFilenames.size() == 1 && inputImageFilenames.front() == "-"`.
`front()` is only evaluated when the size is 1 (short-circuit `&&`), so
a default head is faithful. -/
def streamInputFilenamesMode (inputImageFilenames : List String) : Bool :=
  inputImageFilenames.length == 1 && inputImageFilenames.headD "" == "-"

/-- Observable milestones of `main` (ImageClassifier.cpp:400-573) needed
to place the configuration checks before model loading and inference. -/
inductive DriverEvent where
  | argsError
  | assertFail
  | labelCountMismatch
  | modelLoad
  | inference
deriving DecidableEq

/-- The input-image list `main` works with after resolving
`-input-image-list-file` (ImageClassifier.cpp:412-418). -/
def effectiveFiles (positional : List String)
    (listFileContents : Option (List String)) : List String :=
  match listFileContents with
  | some l => l
  | none => positional

/-- The prefix of `main` (ImageClassifier.cpp:400-429 plus the later
model build / inference milestones): the missing-input check, the
list-file assertion, and the expected-label count check all run before
any model is loaded; only afterwards does the driver build the model and
run inference.  Returns the ordered event trace and the exit status. -/
def mainRun (positional : List String)
    (listFileContents : Option (List String)) (expectedLabels : List ℕ) :
    List DriverEvent × ℕ :=
  if listFileContents = none ∧ positional = [] then
    ([DriverEvent.argsError], 1)
  else if listFileContents ≠ none ∧ positional ≠ [] then
    ([DriverEvent.assertFail], 1)
  else
    if expectedLabels ≠ [] ∧
        expectedLabels.length ≠ (effectiveFiles positional listFileContents).length then
      ([DriverEvent.labelCountMismatch], 1)
    else
      ([DriverEvent.modelLoad, DriverEvent.inference], 0)

lemma map_getD_range' {α : Type} (l : List α) (d : α) :
    ∀ (n s : ℕ), s + n ≤ l.length →
      (List.range' s n).map (fun j => l.getD j d) = (l.drop s).take n := by
  intro n
  induction n with
  | zero => simp
  | succ k ih =>
    intro s hs
    have hsl : s < l.length := by omega
    rw [List.range'_succ, List.map_cons, ih (s + 1) (by omega),
      List.getD_eq_get l d hsl, List.drop_eq_get_cons hsl, List.take_succ_cons]

/-- C9: `getNextMiniBatch` returns false leaving the image list and the
index unchanged once the index has reached the limit; otherwise it
returns true, replaces the image list with exactly the filenames at
positions [miniBatchIndex, miniBatchIndex + miniBatchSize) of the total
list in order, and advances the index by exactly miniBatchSize. -/
theorem getNextMiniBatch_spec (imageList totalImageList : List String)
    (miniBatchIndex miniBatchSize miniBatchLimit : ℕ) :
    (miniBatchLimit ≤ miniBatchIndex →
      getNextMiniBatch imageList totalImageList miniBatchIndex miniBatchSize
          miniBatchLimit
        = (false, imageList, miniBatchIndex)) ∧
    (miniBatchIndex < miniBatchLimit →
      miniBatchIndex + miniBatchSize ≤ totalImageList.length →
      getNextMiniBatch imageList totalImageList miniBatchIndex miniBatchSize
          miniBatchLimit
        = (true, (totalImageList.drop miniBatchIndex).take miniBatchSize,
           miniBatchIndex + miniBatchSize)) := by
  constructor
  · intro h
    rw [getNextMiniBatch, if_pos h]
  · intro h hb
    have hn : ¬ miniBatchIndex ≥ miniBatchLimit := by omega
    rw [getNextMiniBatch, if_neg hn,
      map_getD_range' totalImageList "" miniBatchSize miniBatchIndex hb]

theorem getNextMiniBatch_spec_witness :
    getNextMiniBatch ["x"] ["a", "b", "c", "d"] 4 2 4 = (false, ["x"], 4) ∧
    getNextMiniBatch ["x"] ["a", "b", "c", "d"] 2 2 4
      = (true, ((["a", "b", "c", "d"] : List String).drop 2).take 2, 2 + 2) :=
  ⟨(getNextMiniBatch_spec ["x"] ["a", "b", "c", "d"] 4 2 4).1 (by decide),
   (getNextMiniBatch_spec ["x"] ["a", "b", "c", "d"] 2 2 4).2 (by decide) (by decide)⟩

/-- C10: streaming-input mode is enabled iff the positional filename list
is exactly ["-"]; a "-" among two or more filenames never enables
streaming (it is treated as an ordinary filename). -/
theorem streamInputFilenamesMode_iff (files : List String) :
    (streamInputFilenamesMode files = true ↔ files = ["-"]) ∧
    (2 ≤ files.length → streamInputFilenamesMode files = false) := by
  constructor
  · cases files with
    | nil => simp [streamInputFilenamesMode]
    | cons a l =>
      cases l with
      | nil => simp [streamInputFilenamesMode]
      | cons b m => simp [streamInputFilenamesMode]
  · intro h
    cases files with
    | nil => simp at h
    | cons a l =>
      cases l with
      | nil => simp at h
      | cons b m => simp [streamInputFilenamesMode]

theorem streamInputFilenamesMode_iff_witness :
    streamInputFilenamesMode ["-"] = true ∧
    streamInputFilenamesMode ["a", "-"] = false :=
  ⟨(streamInputFilenamesMode_iff ["-"]).1.mpr rfl,
   (streamInputFilenamesMode_iff ["a", "-"]).2 (by decide)⟩

/-- C6: the number of driver worker threads is
min(miniBatchThreads, numBatches) when minibatch mode is on and the run
is neither emitting a bundle nor profiling; in every other case exactly
one thread is used. -/
theorem mainNumThreads_spec (miniBatch total miniBatchThreads : ℕ)
    (emittingBundle profilingGraph : Bool) :
    (0 < miniBatch → emittingBundle = false → profilingGraph = false →
      mainNumThreads
          (multiThreadingAllowed (decide (0 < miniBatch)) emittingBundle
            profilingGraph)
          miniBatchThreads
          (mainNumBatches (decide (0 < miniBatch)) total miniBatch)
        = min miniBatchThreads (total / miniBatch)) ∧
    ((miniBatch = 0 ∨ emittingBundle = true ∨ profilingGraph = true) →
      mainNumThreads
          (multiThreadingAllowed (decide (0 < miniBatch)) emittingBundle
            profilingGraph)
          miniBatchThreads
          (mainNumBatches (decide (0 < miniBatch)) total miniBatch)
        = 1) := by
  constructor
  · intro h h1 h2
    simp [multiThreadingAllowed, mainNumThreads, mainNumBatches, h, h1, h2]
  · intro h
    rcases h with h | h | h
    · simp [multiThreadingAllowed, mainNumThreads, mainNumBatches, h]
    · simp [multiThreadingAllowed, mainNumThreads, h]
    · simp [multiThreadingAllowed, mainNumThreads, h]

theorem mainNumThreads_spec_witness :
    mainNumThreads (multiThreadingAllowed (decide (0 < 2)) false false) 4
        (mainNumBatches (decide (0 < 2)) 8 2)
      = min 4 (8 / 2) ∧
    mainNumThreads (multiThreadingAllowed (decide (0 < 0)) false false) 4
        (mainNumBatches (decide (0 < 0)) 8 0)
      = 1 :=
  ⟨(mainNumThreads_spec 2 8 4 false false).1 (by decide) rfl rfl,
   (mainNumThreads_spec 0 8 4 false false).2 (Or.inl rfl)⟩

lemma checkExpectedLabel_eq_zero_iff (labelOffset : ℕ)
    (pairs : List FloatIndexPair) (fileName : String) (e : ℕ) :
    (checkExpectedLabel labelOffset pairs fileName e).1 = 0 ↔
      ∃ p ∈ pairs, subSizeT p.2 labelOffset = e := by
  induction pairs with
  | nil => simp [checkExpectedLabel]
  | cons p ps ih =>
    by_cases h : subSizeT p.2 labelOffset = e
    · rw [checkExpectedLabel, if_pos h]
      simp only [true_iff]
      exact ⟨p, by simp, h⟩
    · rw [checkExpectedLabel, if_neg h, ih]
      constructor
      · rintro ⟨q, hq, hqe⟩
        exact ⟨q, by simp [hq], hqe⟩
      · rintro ⟨q, hq, hqe⟩
        rcases List.mem_cons.mp hq with rfl | hq'
        · exact absurd hqe h
        · exact ⟨q, hq', hqe⟩

lemma checkExpectedLabel_fail (labelOffset : ℕ) (pairs : List FloatIndexPair)
    (fileName : String) (e : ℕ)
    (h : ∀ p ∈ pairs, subSizeT p.2 labelOffset ≠ e) :
    checkExpectedLabel labelOffset pairs fileName e = (1, [(fileName, e)]) := by
  induction pairs with
  | nil => rfl
  | cons p ps ih =>
    rw [checkExpectedLabel, if_neg (h p (by simp))]
    exact ih (fun q hq => h q (by simp [hq]))

lemma mismatches_foldl_init (labelOffset : ℕ)
    (samples : List (List FloatIndexPair × String × ℕ)) : ∀ (init : ℕ),
    samples.foldl
        (fun acc s => acc + (checkExpectedLabel labelOffset s.1 s.2.1 s.2.2).1)
        init
      = init +
        (samples.map
          (fun s => (checkExpectedLabel labelOffset s.1 s.2.1 s.2.2).1)).sum := by
  induction samples with
  | nil => simp
  | cons s ss ih =>
    intro init
    simp only [List.foldl_cons, List.map_cons, List.sum_cons]
    rw [ih]
    omega

lemma sum_check_eq_filter_length (labelOffset : ℕ)
    (samples : List (List FloatIndexPair × String × ℕ)) :
    (samples.map
        (fun s => (checkExpectedLabel labelOffset s.1 s.2.1 s.2.2).1)).sum
      = (samples.filter
          (fun s => s.1.all
            (fun p => !(subSizeT p.2 labelOffset == s.2.2)))).length := by
  induction samples with
  | nil => rfl
  | cons s ss ih =>
    rw [List.map_cons, List.sum_cons, List.filter_cons, ih]
    by_cases hall : ∀ p ∈ s.1, subSizeT p.2 labelOffset ≠ s.2.2
    · have h1 : (checkExpectedLabel labelOffset s.1 s.2.1 s.2.2).1 = 1 := by
        rw [checkExpectedLabel_fail labelOffset s.1 s.2.1 s.2.2 hall]
      have hb : (s.1.all (fun p => !(subSizeT p.2 labelOffset == s.2.2)))
          = true := by
        simp only [List.all_eq_true, Bool.not_eq_true', beq_eq_false_iff_ne]
        exact hall
      rw [h1, hb, if_pos rfl, List.length_cons]
      omega
    · push_neg at hall
      obtain ⟨p, hp, hpe⟩ := hall
      have h0 : (checkExpectedLabel labelOffset s.1 s.2.1 s.2.2).1 = 0 :=
        (checkExpectedLabel_eq_zero_iff labelOffset s.1 s.2.1 s.2.2).mpr
          ⟨p, hp, hpe⟩
      have hb : (s.1.all (fun p => !(subSizeT p.2 labelOffset == s.2.2)))
          = false := by
        simp only [List.all_eq_false]
        exact ⟨p, hp, by simp [hpe]⟩
      rw [h0, hb]
      simp

/-- C7: `checkExpectedLabel` returns 0 iff the expected index (after
removing the label offset with size_t wrap-around) appears among the
returned indices; otherwise it returns 1 together with a diagnostic
identifying the file name and the expected index, and the per-sample
results add up to the mismatch count accumulated by
`processAndPrintResultsImpl`: the number of samples whose top-K misses
the expected label. -/
theorem checkExpectedLabel_spec (labelOffset : ℕ)
    (pairs : List FloatIndexPair) (fileName : String) (e : ℕ)
    (samples : List (List FloatIndexPair × String × ℕ)) :
    ((checkExpectedLabel labelOffset pairs fileName e).1 = 0 ↔
      ∃ p ∈ pairs, subSizeT p.2 labelOffset = e) ∧
    ((∀ p ∈ pairs, subSizeT p.2 labelOffset ≠ e) →
      checkExpectedLabel labelOffset pairs fileName e = (1, [(fileName, e)])) ∧
    processAndPrintResultsMismatches labelOffset samples
      = (samples.filter
          (fun s => s.1.all
            (fun p => !(subSizeT p.2 labelOffset == s.2.2)))).length := by
  refine ⟨checkExpectedLabel_eq_zero_iff labelOffset pairs fileName e,
    checkExpectedLabel_fail labelOffset pairs fileName e, ?_⟩
  rw [processAndPrintResultsMismatches, mismatches_foldl_init, Nat.zero_add,
    sum_check_eq_filter_length]

theorem checkExpectedLabel_spec_witness :
    ((checkExpectedLabel 1 [(9, 286), (1, 10)] "cat.png" 285).1 = 0 ↔
      ∃ p ∈ [((9 : ℚ), 286), (1, 10)], subSizeT p.2 1 = 285) ∧
    ((∀ p ∈ [((9 : ℚ), 286), (1, 10)], subSizeT p.2 1 ≠ 285) →
      checkExpectedLabel 1 [(9, 286), (1, 10)] "cat.png" 285
        = (1, [("cat.png", 285)])) ∧
    processAndPrintResultsMismatches 1 [([((9 : ℚ), 286)], "cat.png", 5)]
      = ([([((9 : ℚ), 286)], "cat.png", 5)].filter
          (fun s => s.1.all (fun p => !(subSizeT p.2 1 == s.2.2)))).length :=
  checkExpectedLabel_spec 1 [(9, 286), (1, 10)] "cat.png" 285
    [([((9 : ℚ), 286)], "cat.png", 5)]

/-- C8: when the expected-labels list is non-empty and its length differs
from the number of input image filenames, main exits with nonzero status
before any model load and before any inference; whenever the earlier
argument checks pass, the reported error is exactly the label-count
mismatch diagnostic. -/
theorem mainRun_label_mismatch_early_exit (positional : List String)
    (listFileContents : Option (List String)) (expectedLabels : List ℕ)
    (hne : expectedLabels ≠ [])
    (hmm : expectedLabels.length
      ≠ (effectiveFiles positional listFileContents).length) :
    (mainRun positional listFileContents expectedLabels).2 ≠ 0 ∧
    DriverEvent.modelLoad ∉ (mainRun positional listFileContents expectedLabels).1 ∧
    DriverEvent.inference ∉ (mainRun positional listFileContents expectedLabels).1 ∧
    (¬(listFileContents = none ∧ positional = []) →
      ¬(listFileContents ≠ none ∧ positional ≠ []) →
      mainRun positional listFileContents expectedLabels
        = ([DriverEvent.labelCountMismatch], 1)) := by
  unfold mainRun
  by_cases h1 : listFileContents = none ∧ positional = []
  · simp [h1]
  · by_cases h2 : listFileContents ≠ none ∧ positional ≠ []
    · simp [h1, h2]
    · have h3 : expectedLabels ≠ [] ∧ expectedLabels.length
        ≠ (effectiveFiles positional listFileContents).length := ⟨hne, hmm⟩
      simp [h1, h2, h3]

theorem mainRun_label_mismatch_early_exit_witness :
    (mainRun ["a"] none [1, 2]).2 ≠ 0 ∧
    DriverEvent.modelLoad ∉ (mainRun ["a"] none [1, 2]).1 ∧
    DriverEvent.inference ∉ (mainRun ["a"] none [1, 2]).1 ∧
    (¬((none : Option (List String)) = none ∧ (["a"] : List String) = []) →
      ¬((none : Option (List String)) ≠ none ∧ (["a"] : List String) ≠ []) →
      mainRun ["a"] none [1, 2] = ([DriverEvent.labelCountMismatch], 1)) :=
  mainRun_label_mismatch_early_exit ["a"] none [1, 2] (by decide) (by decide)

lemma runCalls_fst (dm : QueueBackedDeviceManager) (fs : List String) :
    (dm.runCalls fs).1 = List.range' dm.nextIdentifier fs.length := by
  induction fs generalizing dm with
  | nil => rfl
  | cons f fs ih =>
    simp only [QueueBackedDeviceManager.runCalls, QueueBackedDeviceManager.runFunction,
      List.length_cons, List.range'_succ]
    rw [ih]

lemma runCalls_final (dm : QueueBackedDeviceManager) (fs : List String) :
    (dm.runCalls fs).2.nextIdentifier = dm.nextIdentifier + fs.length := by
  induction fs generalizing dm with
  | nil => rfl
  | cons f fs ih =>
    simp only [QueueBackedDeviceManager.runCalls, QueueBackedDeviceManager.runFunction,
      List.length_cons]
    rw [ih]
    dsimp only
    omega

/-- C3: every `runFunction` call hands out the current `nextIdentifier_`
value, incremented exactly once per call; across any call sequence on one
instance the returned identifiers are consecutive from the initial
counter, strictly increasing in allocation order, pairwise distinct, and
never reused by any later call sequence. -/
theorem runFunction_identifiers_spec (dm : QueueBackedDeviceManager)
    (fs gs : List String) :
    (dm.runCalls fs).1 = List.range' dm.nextIdentifier fs.length ∧
    List.Pairwise (· < ·) (dm.runCalls fs).1 ∧
    (dm.runCalls fs).1.Nodup ∧
    (dm.runCalls fs).2.nextIdentifier = dm.nextIdentifier + fs.length ∧
    (∀ i ∈ (dm.runCalls fs).1, i ∉ ((dm.runCalls fs).2.runCalls gs).1) := by
  refine ⟨runCalls_fst dm fs, ?_, ?_, runCalls_final dm fs, ?_⟩
  · rw [runCalls_fst]
    exact List.pairwise_lt_range' _ _
  · rw [runCalls_fst]
    exact List.nodup_range' _ _
  · intro i hi hi2
    rw [runCalls_fst] at hi hi2
    rw [runCalls_final] at hi2
    have h1 := List.mem_range'_1.mp hi
    have h2 := List.mem_range'_1.mp hi2
    omega

theorem runFunction_identifiers_spec_witness :
    (QueueBackedDeviceManager.runCalls ⟨5, []⟩ ["f", "g"]).1
      = List.range' 5 (["f", "g"] : List String).length ∧
    List.Pairwise (· < ·) (QueueBackedDeviceManager.runCalls ⟨5, []⟩ ["f", "g"]).1 ∧
    (QueueBackedDeviceManager.runCalls ⟨5, []⟩ ["f", "g"]).1.Nodup ∧
    (QueueBackedDeviceManager.runCalls ⟨5, []⟩ ["f", "g"]).2.nextIdentifier
      = 5 + (["f", "g"] : List String).length ∧
    (∀ i ∈ (QueueBackedDeviceManager.runCalls ⟨5, []⟩ ["f", "g"]).1,
      i ∉ ((QueueBackedDeviceManager.runCalls ⟨5, []⟩ ["f", "g"]).2.runCalls
        ["h"]).1) :=
  runFunction_identifiers_spec ⟨5, []⟩ ["f", "g"] ["h"]

lemma pairLt_trans {a b c : FloatIndexPair} (h1 : pairLt a b)
    (h2 : pairLt b c) : pairLt a c := by
  rcases h1 with h1 | ⟨h1, h1i⟩ <;> rcases h2 with h2 | ⟨h2, h2i⟩
  · exact Or.inl (lt_trans h1 h2)
  · exact Or.inl (by rw [← h2]; exact h1)
  · exact Or.inl (by rw [h1]; exact h2)
  · exact Or.inr ⟨h1.trans h2, lt_trans h1i h2i⟩

lemma pairLt_le_fst {a b : FloatIndexPair} (h : pairLt a b) : a.1 ≤ b.1 := by
  rcases h with h | ⟨h, _⟩
  · exact le_of_lt h
  · exact le_of_eq h

lemma pairLt_of_not {a b : FloatIndexPair} (h : ¬ pairLt a b) (hne : b ≠ a) :
    pairLt b a := by
  unfold pairLt at *
  push_neg at h
  obtain ⟨hle, himp⟩ := h
  rcases lt_or_eq_of_le hle with hlt | heq
  · exact Or.inl hlt
  · rcases lt_or_eq_of_le (himp heq.symm) with hilt | hieq
    · exact Or.inr ⟨heq, hilt⟩
    · exact absurd (Prod.ext heq hieq) hne

lemma qInsert_perm (p : FloatIndexPair) (q : List FloatIndexPair) :
    List.Perm (qInsert p q) (p :: q) := by
  induction q with
  | nil => exact List.Perm.refl _
  | cons a l ih =>
    rw [qInsert]
    by_cases h : pairLt p a
    · rw [if_pos h]
    · rw [if_neg h]
      exact (ih.cons a).trans (List.Perm.swap p a l)

lemma mem_qInsert {x p : FloatIndexPair} {q : List FloatIndexPair} :
    x ∈ qInsert p q ↔ x = p ∨ x ∈ q := by
  rw [(qInsert_perm p q).mem_iff, List.mem_cons]

lemma length_qInsert (p : FloatIndexPair) (q : List FloatIndexPair) :
    (qInsert p q).length = q.length + 1 := by
  rw [(qInsert_perm p q).length_eq, List.length_cons]

lemma pairwise_qInsert {p : FloatIndexPair} {q : List FloatIndexPair}
    (hne : ∀ a ∈ q, a ≠ p) (hs : q.Pairwise pairLt) :
    (qInsert p q).Pairwise pairLt := by
  induction q with
  | nil => simp [qInsert]
  | cons a l ih =>
    rw [List.pairwise_cons] at hs
    obtain ⟨ha, hl⟩ := hs
    rw [qInsert]
    by_cases h : pairLt p a
    · rw [if_pos h]
      refine List.Pairwise.cons ?_ (List.Pairwise.cons ha hl)
      intro x hx
      rcases List.mem_cons.mp hx with rfl | hx'
      · exact h
      · exact pairLt_trans h (ha x hx')
    · rw [if_neg h]
      refine List.Pairwise.cons ?_ (ih (fun b hb => hne b (by simp [hb])) hl)
      intro x hx
      rcases mem_qInsert.mp hx with rfl | hx'
      · exact pairLt_of_not h (hne a (by simp))
      · exact ha x hx'

lemma nodup_map_snd_qInsert {p : FloatIndexPair} {q : List FloatIndexPair}
    (hp : p.2 ∉ q.map Prod.snd) (hnd : (q.map Prod.snd).Nodup) :
    ((qInsert p q).map Prod.snd).Nodup := by
  have hperm := (qInsert_perm p q).map Prod.snd
  rw [hperm.nodup_iff, List.map_cons, List.nodup_cons]
  exact ⟨hp, hnd⟩

lemma mem_of_nodup_length_bound (l : List ℕ) (n : ℕ) (hnd : l.Nodup)
    (hlen : l.length = n) (hbound : ∀ x ∈ l, x < n) : ∀ j < n, j ∈ l := by
  intro j hj
  have hsub : l.toFinset ⊆ Finset.range n := by
    intro x hx
    rw [Finset.mem_range]
    exact hbound x (List.mem_toFinset.mp hx)
  have hcard : (Finset.range n).card ≤ l.toFinset.card := by
    rw [List.toFinset_card_of_nodup hnd, hlen, Finset.card_range]
  rw [← List.mem_toFinset, Finset.eq_of_subset_of_card_le hsub hcard,
    Finset.mem_range]
  exact hj

lemma topKStep_inv (f : ℕ → ℚ) (K i : ℕ) (q : List FloatIndexPair)
    (h : TopKInv f K i q) : TopKInv f K (i + 1) (topKStep K q (f i, i)) := by
  obtain ⟨hsort, hmem, hnd, hlen, hmin⟩ := h
  have hne : ∀ a ∈ q, a ≠ (f i, i) := by
    intro a ha heq
    have h2 := (hmem a ha).1
    rw [heq] at h2
    exact absurd h2 (by simp)
  have hnotin_i : (i : ℕ) ∉ q.map Prod.snd := by
    intro hmem2
    obtain ⟨p', hp', hp2⟩ := List.mem_map.mp hmem2
    exact absurd (hp2 ▸ (hmem p' hp').1) (by simp)
  rw [topKStep.eq_def]
  by_cases hfull : q.length < K
  · rw [if_pos hfull]
    have hiK : i < K := by omega
    refine ⟨pairwise_qInsert hne hsort, ?_, ?_, ?_, ?_⟩
    · intro p hp
      rcases mem_qInsert.mp hp with rfl | hp'
      · exact ⟨Nat.lt_succ_self i, rfl⟩
      · exact ⟨Nat.lt_succ_of_lt (hmem p hp').1, (hmem p hp').2⟩
    · exact nodup_map_snd_qInsert hnotin_i hnd
    · rw [length_qInsert, hlen]
      omega
    · intro j hj hnotin p hp
      have hji : j < i := by
        rcases Nat.lt_succ_iff_lt_or_eq.mp hj with hji | rfl
        · exact hji
        · exact absurd rfl (hnotin (f j, j) (mem_qInsert.mpr (Or.inl rfl)))
      have hqlen : q.length = i := by omega
      have hcov := mem_of_nodup_length_bound (q.map Prod.snd) i hnd
        (by rw [List.length_map, hqlen])
        (by
          intro x hx
          obtain ⟨p', hp', hp2⟩ := List.mem_map.mp hx
          exact hp2 ▸ (hmem p' hp').1)
        j hji
      obtain ⟨p', hp', hp2⟩ := List.mem_map.mp hcov
      exact absurd hp2 (hnotin p' (mem_qInsert.mpr (Or.inr hp')))
  · rw [if_neg hfull]
    have hKi : K ≤ i := by omega
    cases q with
    | nil =>
      dsimp only
      have hK0 : K = 0 := by simp at hlen; omega
      refine ⟨List.Pairwise.nil, by simp, by simp, by simp [hK0], ?_⟩
      intro j _ _ p hp
      exact absurd hp (List.not_mem_nil p)
    | cons m rest =>
      dsimp only
      rw [List.pairwise_cons] at hsort
      obtain ⟨hhead, htail⟩ := hsort
      by_cases hev : m.1 < f i
      · rw [if_pos hev]
        have hnotin_i' : (i : ℕ) ∉ rest.map Prod.snd := by
          intro hx
          exact hnotin_i (by simp [List.mem_cons] at hx ⊢; tauto)
        have hnd' : (rest.map Prod.snd).Nodup := by
          rw [List.map_cons, List.nodup_cons] at hnd
          exact hnd.2
        refine ⟨pairwise_qInsert (fun a ha => hne a (List.mem_cons_of_mem m ha))
          htail, ?_, nodup_map_snd_qInsert hnotin_i' hnd', ?_, ?_⟩
        · intro p hp
          rcases mem_qInsert.mp hp with rfl | hp'
          · exact ⟨Nat.lt_succ_self i, rfl⟩
          · have := hmem p (List.mem_cons_of_mem m hp')
            exact ⟨Nat.lt_succ_of_lt this.1, this.2⟩
        · rw [length_qInsert]
          rw [List.length_cons] at hlen
          omega
        · intro j hj hnotin p hp
          rcases Nat.lt_succ_iff_lt_or_eq.mp hj with hji | rfl
        
          · by_cases hjm : j = m.2
            · have hm1 : f m.2 = m.1 := (hmem m (List.mem_cons_self m rest)).2
              subst hjm
              rw [hm1]
              rcases mem_qInsert.mp hp with rfl | hp'
              · exact le_of_lt hev
              · exact pairLt_le_fst (hhead p hp')
            · have hout : ∀ p' ∈ m :: rest, p'.2 ≠ j := by
                intro p' hp' heq
                rcases List.mem_cons.mp hp' with rfl | hin
                · exact hjm heq.symm
                · exact hnotin p' (mem_qInsert.mpr (Or.inr hin)) heq
              have hall := hmin j hji hout
              rcases mem_qInsert.mp hp with rfl | hp'
              · have h1 := hall m (List.mem_cons_self m rest)
                exact le_of_lt (lt_of_le_of_lt h1 hev)
              · exact hall p (List.mem_cons_of_mem m hp')
          · exact absurd rfl
              (hnotin (f j, j) (mem_qInsert.mpr (Or.inl rfl)))
      · rw [if_neg hev]
        refine ⟨List.pairwise_cons.mpr ⟨hhead, htail⟩, ?_, hnd, ?_, ?_⟩
        · intro p hp
          exact ⟨Nat.lt_succ_of_lt (hmem p hp).1, (hmem p hp).2⟩
        · rw [List.length_cons] at hlen ⊢
          omega
        · intro j hj hnotin p hp
          rcases Nat.lt_succ_iff_lt_or_eq.mp hj with hji | rfl
          · exact hmin j hji hnotin p hp
          · have hfi : f j ≤ m.1 := le_of_not_lt hev
            rcases List.mem_cons.mp hp with rfl | hp'
            · exact hfi
            · exact le_trans hfi (pairLt_le_fst (hhead p hp'))

lemma topKScan_inv (f : ℕ → ℚ) (K : ℕ) :
    ∀ (rest : List ℚ) (i : ℕ) (q : List FloatIndexPair),
      (∀ k, k < rest.length → rest.getD k 0 = f (i + k)) →
      TopKInv f K i q →
      TopKInv f K (i + rest.length) (topKScan K rest i q) := by
  intro rest
  induction rest with
  | nil =>
    intro i q _ h
    simpa using h
  | cons s rest ih =>
    intro i q hrest h
    have hs : s = f i := by
      have h0 := hrest 0 (by simp)
      simpa using h0
    have hstep := topKStep_inv f K i q h
    rw [← hs] at hstep
    have hrest' : ∀ k, k < rest.length → rest.getD k 0 = f ((i + 1) + k) := by
      intro k hk
      have hk1 := hrest (k + 1) (by simp; omega)
      rw [List.getD_cons_succ] at hk1
      rw [hk1]
      congr 1
      omega
    have hres := ih (i + 1) (topKStep K q (s, i)) hrest' hstep
    rw [topKScan]
    have heq : i + (s :: rest).length = (i + 1) + rest.length := by
      simp
      omega
    rw [heq]
    exact hres

lemma getTopKPairs_inv (H : List ℚ) (K : ℕ) :
    TopKInv (fun j => H.getD j 0) K H.length (topKScan K H 0 []) := by
  have h0 : TopKInv (fun j => H.getD j 0) K 0 [] := by
    refine ⟨List.Pairwise.nil, by simp, by simp, by simp, by simp⟩
  have hres := topKScan_inv (fun j => H.getD j 0) K H 0 []
    (by intro k hk; simp) h0
  simpa using hres

/-- C1 counterexample: for score vector [1, 1, 2] and K = 2 the pair
(1, index 1) is selected while index 0 is not, although the scores at
indices 0 and 1 are exactly equal — the entry evaluated first in the
left-to-right scan is NOT the one kept, refuting the claimed tie-break
direction. -/
theorem getTopKPairs_tie_counterexample :
    ¬ (∀ p ∈ getTopKPairs 2 [1, 1, 2],
        ∀ j < ([(1 : ℚ), 1, 2] : List ℚ).length,
          j ∉ (getTopKPairs 2 [1, 1, 2]).map Prod.snd →
          ([(1 : ℚ), 1, 2] : List ℚ).getD j 0 = p.1 → p.2 < j) := by
  decide

/-- C1 (amended): for 1 ≤ K ≤ N, `getTopKPairs` returns exactly K pairs
with pairwise-distinct valid indices into H, each returned score is H at
its index, and the minimum selected score is ≥ every non-selected score;
when a selected and a non-selected entry have exactly equal scores the
kept entry is not necessarily the lower index (see the counterexample:
an eviction by a strictly greater score removes the lowest-indexed
minimum-score entry). -/
theorem getTopKPairs_selects_topK (H : List ℚ) (K : ℕ) (hK1 : 1 ≤ K)
    (hKN : K ≤ H.length) :
    (getTopKPairs K H).length = K ∧
    ((getTopKPairs K H).map Prod.snd).Nodup ∧
    (∀ p ∈ getTopKPairs K H, p.2 < H.length ∧ H.getD p.2 0 = p.1) ∧
    (∀ j < H.length, j ∉ (getTopKPairs K H).map Prod.snd →
      ∀ p ∈ getTopKPairs K H, H.getD j 0 ≤ p.1) := by
  obtain ⟨hsort, hmem, hnd, hlen, hmin⟩ := getTopKPairs_inv H K
  rw [getTopKPairs]
  refine ⟨?_, ?_, ?_, ?_⟩
  · rw [List.length_reverse, hlen]
    omega
  · rw [List.map_reverse, List.nodup_reverse]
    exact hnd
  · intro p hp
    exact hmem p (List.mem_reverse.mp hp)
  · intro j hj hnotin p hp
    refine hmin j hj ?_ p (List.mem_reverse.mp hp)
    intro p' hp' heq
    apply hnotin
    rw [List.map_reverse, List.mem_reverse]
    exact heq ▸ List.mem_map_of_mem Prod.snd hp'

theorem getTopKPairs_selects_topK_witness :
    (getTopKPairs 2 [1, 1, 2]).length = 2 ∧
    ((getTopKPairs 2 [1, 1, 2]).map Prod.snd).Nodup ∧
    (∀ p ∈ getTopKPairs 2 [1, 1, 2],
      p.2 < ([(1 : ℚ), 1, 2] : List ℚ).length ∧
      ([(1 : ℚ), 1, 2] : List ℚ).getD p.2 0 = p.1) ∧
    (∀ j < ([(1 : ℚ), 1, 2] : List ℚ).length,
      j ∉ (getTopKPairs 2 [1, 1, 2]).map Prod.snd →
      ∀ p ∈ getTopKPairs 2 [1, 1, 2],
        ([(1 : ℚ), 1, 2] : List ℚ).getD j 0 ≤ p.1) :=
  getTopKPairs_selects_topK [1, 1, 2] 2 (by decide) (by decide)

/-- C2 counterexample: for score vector [0.1, 0.9, 0.4, 0.9] and K = 2
the code returns [(0.9, index 3), (0.9, index 1)], not the claimed
[(0.9, index 1), (0.9, index 3)]: equal-score pairs come out
highest-index first. -/
theorem getTopKPairs_order_counterexample :
    getTopKPairs 2 [1/10, 9/10, 4/10, 9/10]
        = [((9 : ℚ)/10, 3), (9/10, 1)] ∧
    getTopKPairs 2 [1/10, 9/10, 4/10, 9/10]
        ≠ [((9 : ℚ)/10, 1), (9/10, 3)] := by
  norm_num [getTopKPairs, topKScan, topKStep, qInsert, pairLt]

/-- C2 (amended): for 1 ≤ K ≤ N the returned pairs are sorted strictly
descending in the lexicographic (score, index) order — scores are
non-increasing, and equal-score pairs are ordered latest-seen (highest
index) first; in particular for input [0.1, 0.9, 0.4, 0.9] with K = 2
the returned sequence is [(0.9, index 3), (0.9, index 1)]. -/
theorem getTopKPairs_sorted_desc (H : List ℚ) (K : ℕ) (hK1 : 1 ≤ K)
    (hKN : K ≤ H.length) :
    (getTopKPairs K H).Pairwise (fun a b => pairLt b a) ∧
    getTopKPairs 2 [1/10, 9/10, 4/10, 9/10]
      = [((9 : ℚ)/10, 3), (9/10, 1)] := by
  constructor
  · obtain ⟨hsort, _, _, _, _⟩ := getTopKPairs_inv H K
    rw [getTopKPairs, List.pairwise_reverse]
    exact hsort
  · norm_num [getTopKPairs, topKScan, topKStep, qInsert, pairLt]

theorem getTopKPairs_sorted_desc_witness :
    (getTopKPairs 2 [(3 : ℚ), 7]).Pairwise (fun a b => pairLt b a) ∧
    getTopKPairs 2 [1/10, 9/10, 4/10, 9/10]
      = [((9 : ℚ)/10, 3), (9/10, 1)] :=
  getTopKPairs_sorted_desc [(3 : ℚ), 7] 2 (by decide) (by decide)

lemma workerDrain_eq {α : Type} : ∀ (l : List α), workerDrain l = l
  | [] => rfl
  | t :: ts => by rw [workerDrain, workerDrain_eq ts]

lemma getD_set_self {α : Type} :
    ∀ (prods : List (List α)) (t : ℕ) (xs : List α),
      t < prods.length → (prods.set t xs).getD t [] = xs
  | [], t, xs, h => absurd h (by simp)
  | p :: ps, 0, xs, _ => rfl
  | p :: ps, t + 1, xs, h => getD_set_self ps t xs (by simpa using h)

lemma getD_set_other {α : Type} :
    ∀ (prods : List (List α)) (t u : ℕ) (xs : List α),
      t ≠ u → (prods.set t xs).getD u [] = prods.getD u []
  | [], _, _, _, _ => rfl
  | p :: ps, 0, 0, xs, h => absurd rfl h
  | p :: ps, 0, u + 1, xs, _ => rfl
  | p :: ps, t + 1, 0, xs, _ => rfl
  | p :: ps, t + 1, u + 1, xs, h => getD_set_other ps t u xs (by omega)

lemma flatten_set_cons {α : Type} :
    ∀ (prods : List (List α)) (t : ℕ) (x : α) (xs : List α),
      prods.getD t [] = x :: xs →
      List.Perm (x :: (prods.set t xs).flatten) prods.flatten
  | [], t, x, xs, h => by simp at h
  | p :: ps, 0, x, xs, h => by
      simp only [List.getD_cons_zero] at h
      subst h
      exact List.Perm.refl _
  | p :: ps, t + 1, x, xs, h => by
      have ih := flatten_set_cons ps t x xs (by simpa using h)
      show List.Perm (x :: (p ++ (ps.set t xs).flatten)) (p ++ ps.flatten)
      exact List.perm_middle.symm.trans (List.Perm.append_left p ih)

lemma mergeSched_spec {α : Type} :
    ∀ (sched : List ℕ) (prods : List (List α)),
      (∀ l ∈ mergeRem sched prods, l = []) →
      List.Perm (mergeSched sched prods) prods.flatten ∧
      ∀ t, (prods.getD t []).Sublist (mergeSched sched prods) := by
  intro sched
  induction sched with
  | nil =>
    intro prods hdr
    have hflat : prods.flatten = [] := List.flatten_eq_nil_iff.mpr hdr
    constructor
    · rw [hflat]
      exact List.Perm.refl _
    · intro t
      rcases Nat.lt_or_ge t prods.length with ht | ht
      · have hmem : prods.getD t [] ∈ prods := by
          rw [List.getD_eq_get prods [] ht]
          exact List.get_mem prods t ht
        rw [hdr _ hmem]
        exact List.nil_sublist _
      · rw [List.getD_eq_default prods [] ht]
        exact List.nil_sublist _
  | cons t ts ih =>
    intro prods hdr
    rw [mergeRem.eq_def] at hdr
    rw [mergeSched.eq_def]
    dsimp only at hdr ⊢
    cases hq : prods.getD t [] with
    | nil =>
      rw [hq] at hdr
      dsimp only at hdr ⊢
      exact ih prods hdr
    | cons x xs =>
      rw [hq] at hdr
      dsimp only at hdr ⊢
      obtain ⟨hperm, hsub⟩ := ih (prods.set t xs) hdr
      constructor
      · exact (hperm.cons x).trans (flatten_set_cons prods t x xs hq)
      · intro u
        by_cases hu : u = t
        · subst hu
          rw [hq]
          by_cases hlen : u < prods.length
          · have hxs := hsub u
            rw [getD_set_self prods u xs hlen] at hxs
            exact List.Sublist.cons₂ x hxs
          · rw [List.getD_eq_default prods [] (le_of_not_lt hlen)] at hq
            exact absurd hq (by simp)
        · have hus := hsub u
          rw [getD_set_other prods t u xs (fun h => hu h.symm)] at hus
          exact hus.cons x

/-- C4: submitting the operations of M producer lists through any
complete interleaving schedule yields exactly N executions on the single
worker thread: the FIFO execution trace is a permutation of all
submitted operations (each submitted operation executes exactly once)
and contains each producer's operations as a subsequence (per-producer
submission order is preserved). -/
theorem deviceManager_queue_exactly_once {α : Type} (prods : List (List α))
    (sched : List ℕ) (hdrain : ∀ l ∈ mergeRem sched prods, l = []) :
    (workerDrain (mergeSched sched prods)).length
      = (prods.map List.length).sum ∧
    List.Perm (workerDrain (mergeSched sched prods)) prods.flatten ∧
    ∀ t, (prods.getD t []).Sublist (workerDrain (mergeSched sched prods)) := by
  obtain ⟨hperm, hsub⟩ := mergeSched_spec sched prods hdrain
  rw [workerDrain_eq]
  exact ⟨by rw [hperm.length_eq, List.length_flatten], hperm, hsub⟩

theorem deviceManager_queue_exactly_once_witness :
    (workerDrain (mergeSched [0, 1, 0]
        [[DeviceTask.addNetworkImpl 0, DeviceTask.runFunctionImpl 0 "f"],
         [DeviceTask.evictNetworkImpl "g"]])).length
      = (([[DeviceTask.addNetworkImpl 0, DeviceTask.runFunctionImpl 0 "f"],
          [DeviceTask.evictNetworkImpl "g"]].map List.length)).sum ∧
    List.Perm
      (workerDrain (mergeSched [0, 1, 0]
        [[DeviceTask.addNetworkImpl 0, DeviceTask.runFunctionImpl 0 "f"],
         [DeviceTask.evictNetworkImpl "g"]]))
      ([[DeviceTask.addNetworkImpl 0, DeviceTask.runFunctionImpl 0 "f"],
        [DeviceTask.evictNetworkImpl "g"]].flatten) ∧
    ∀ t, (([[DeviceTask.addNetworkImpl 0, DeviceTask.runFunctionImpl 0 "f"],
        [DeviceTask.evictNetworkImpl "g"]].getD t []).Sublist
      (workerDrain (mergeSched [0, 1, 0]
        [[DeviceTask.addNetworkImpl 0, DeviceTask.runFunctionImpl 0 "f"],
         [DeviceTask.evictNetworkImpl "g"]]))) :=
  deviceManager_queue_exactly_once
    [[DeviceTask.addNetworkImpl 0, DeviceTask.runFunctionImpl 0 "f"],
     [DeviceTask.evictNetworkImpl "g"]] [0, 1, 0] (by decide)

/-- C5: with total = numBatches * miniBatch and worker count
W = min(miniBatchThreads, numBatches), the per-thread ranges
[startIndex, endIndex) computed by main are pairwise disjoint, cover
[0, total) exactly, have lengths that are multiples of the minibatch
size, and each range ends where the next begins (clamped at total). -/
theorem minibatch_partition_spec
    (miniBatch numBatches miniBatchThreads total : ℕ)
    (hb : 1 ≤ miniBatch) (hB : 1 ≤ numBatches) (hth : 1 ≤ miniBatchThreads)
    (htot : total = numBatches * miniBatch) :
    (∀ i j x, i < j → j < min miniBatchThreads numBatches →
      x < threadEndIndex i
          (miniBatchesPerThread numBatches (min miniBatchThreads numBatches))
          miniBatch total →
      threadStartIndex j
          (miniBatchesPerThread numBatches (min miniBatchThreads numBatches))
          miniBatch ≤ x → False) ∧
    (∀ x, x < total ↔ ∃ i < min miniBatchThreads numBatches,
      threadStartIndex i
          (miniBatchesPerThread numBatches (min miniBatchThreads numBatches))
          miniBatch ≤ x ∧
      x < threadEndIndex i
          (miniBatchesPerThread numBatches (min miniBatchThreads numBatches))
          miniBatch total) ∧
    (∀ i, miniBatch ∣
      (threadEndIndex i
          (miniBatchesPerThread numBatches (min miniBatchThreads numBatches))
          miniBatch total
        - threadStartIndex i
            (miniBatchesPerThread numBatches (min miniBatchThreads numBatches))
            miniBatch)) ∧
    (∀ i, threadEndIndex i
        (miniBatchesPerThread numBatches (min miniBatchThreads numBatches))
        miniBatch total
      = min (threadStartIndex (i + 1)
          (miniBatchesPerThread numBatches (min miniBatchThreads numBatches))
          miniBatch) total) := by
  simp only [threadStartIndex, threadEndIndex]
  set W := min miniBatchThreads numBatches with hW
  set m := miniBatchesPerThread numBatches W with hm
  have hWpos : 0 < W := by omega
  have hm1 : numBatches + W - 1 = (numBatches - 1) + W := by omega
  have hmdef : m = (numBatches - 1) / W + 1 := by
    rw [hm, miniBatchesPerThread, hm1, Nat.add_div_right _ hWpos]
  have hmpos : 0 < m := by
    rw [hmdef]
    exact Nat.succ_pos _
  have hdm := Nat.div_add_mod (numBatches - 1) W
  have hmod := Nat.mod_lt (numBatches - 1) hWpos
  have hkey : numBatches ≤ W * m := by
    rw [hmdef, Nat.mul_add, Nat.mul_one]
    omega
  have hc : 0 < m * miniBatch := Nat.mul_pos hmpos hb
  refine ⟨?_, ?_, ?_, ?_⟩
  · intro i j x hij hjW hxe hxs
    have h1 : min ((i + 1) * m * miniBatch) total ≤ (i + 1) * m * miniBatch :=
      min_le_left _ _
    have h2 : (i + 1) * m * miniBatch ≤ j * m * miniBatch :=
      Nat.mul_le_mul_right miniBatch (Nat.mul_le_mul_right m hij)
    omega
  · intro x
    constructor
    · intro hx
      refine ⟨x / (m * miniBatch), ?_, ?_, ?_⟩
      · rw [Nat.div_lt_iff_lt_mul hc]
        have hWmb : numBatches * miniBatch ≤ W * m * miniBatch :=
          Nat.mul_le_mul_right miniBatch hkey
        rw [Nat.mul_assoc] at hWmb
        omega
      · rw [Nat.mul_assoc]
        exact Nat.div_mul_le_self x (m * miniBatch)
      · apply lt_min
        · rw [Nat.mul_assoc, Nat.add_mul, Nat.one_mul]
          have hdm2 := Nat.div_add_mod x (m * miniBatch)
          have hmod2 := Nat.mod_lt x hc
          rw [Nat.mul_comm (m * miniBatch) (x / (m * miniBatch))] at hdm2
          omega
        · exact hx
    · rintro ⟨i, hiW, hs, he⟩
      exact lt_of_lt_of_le he (min_le_right _ _)
  · intro i
    rcases le_or_lt ((i + 1) * m * miniBatch) total with hle | hlt
    · rw [min_eq_left hle]
      have hsub : (i + 1) * m * miniBatch - i * m * miniBatch
          = m * miniBatch := by
        rw [Nat.succ_mul i m, Nat.add_mul]
        omega
      rw [hsub]
      exact dvd_mul_left miniBatch m
    · rw [min_eq_right (le_of_lt hlt), htot, ← Nat.sub_mul]
      exact dvd_mul_left miniBatch (numBatches - i * m)
  · intro i
    exact trivial

theorem minibatch_partition_spec_witness :
    (∀ i j x, i < j → j < min 5 7 →
      x < threadEndIndex i (miniBatchesPerThread 7 (min 5 7)) 2 14 →
      threadStartIndex j (miniBatchesPerThread 7 (min 5 7)) 2 ≤ x → False) ∧
    (∀ x, x < 14 ↔ ∃ i < min 5 7,
      threadStartIndex i (miniBatchesPerThread 7 (min 5 7)) 2 ≤ x ∧
      x < threadEndIndex i (miniBatchesPerThread 7 (min 5 7)) 2 14) ∧
    (∀ i, 2 ∣
      (threadEndIndex i (miniBatchesPerThread 7 (min 5 7)) 2 14
        - threadStartIndex i (miniBatchesPerThread 7 (min 5 7)) 2)) ∧
    (∀ i, threadEndIndex i (miniBatchesPerThread 7 (min 5 7)) 2 14
      = min (threadStartIndex (i + 1) (miniBatchesPerThread 7 (min 5 7)) 2)
          14) :=
  minibatch_partition_spec 2 7 5 14 (by decide) (by decide) (by decide)
    (by decide)
